import Mathlib

/-!
Verification of the Blauberg fan protocol client
(`custom_components/blaueberg/blauberg_protocol.py`).

The protocol module imports `Packet`, `Section` and `ExpandingSection` from a
sibling `packet` module that is not part of the available sources; those
primitives are modelled from the specification (spec.md §3 "Field", §4.1
"Field/Frame primitive", §9 "Templated/auto-sized fields") and every
definition that relies on such modelling says so in its doc comment.
Everything else is translated directly from `blauberg_protocol.py`.

Conventions:
* a byte is a `Nat` (assumed `< 256` where serialization is at stake);
* Python `dict[int, Optional[int]]` is an insertion-ordered association
  list `DMap`; `dlookup m k = none` models `k not in m`,
  `dlookup m k = some none` models `m[k] = None`;
* Python code that can raise (`IndexError`, `KeyError`) is modelled with
  `Option`, `none` standing for the raised exception.
-/

namespace Blauberg

/-- Modelled from the spec (§4.1): the byte size of an auto-sized Field is
"the minimum bytes needed to hold" its value.  A zero value still occupies
one byte: §4.3 requires the `PWD_LEN(1B)` field, which is `Section(0)` for
an empty password, to serialize as the single byte `0x00`.
`byteSizeF` carries fuel to stay structurally recursive; `byteSizeOf v`
supplies fuel `v`, which is always sufficient. -/
def byteSizeF : Nat → Nat → Nat
  | 0, _ => 1
  | fuel + 1, v => if v < 256 then 1 else byteSizeF fuel (v / 256) + 1

/-- Auto-computed byte size of a value (spec §4.1). -/
def byteSizeOf (v : Nat) : Nat := byteSizeF v v

/-- Big-endian serialization of `v` into exactly `n` bytes
(spec §3: "Serializes to big-endian bytes of exactly `byteSize` length"). -/
def toBytesBE (v : Nat) : Nat → List Nat
  | 0 => []
  | n + 1 => toBytesBE (v / 256) n ++ [v % 256]

/-- Big-endian deserialization, the model of `int.from_bytes(_, "big")`
used by `Section.set_bytes` (spec §3: "deserializes a byte slice ... into
`value`"). -/
def fromBytesBE (bs : List Nat) : Nat := bs.foldl (fun acc b => acc * 256 + b) 0

/-- Modelled from the spec (§3, §9): a Field is a byte size together with a
value.  Pending templates are resolved before their bytes are ever used in
the translated code, so a single structure suffices. -/
structure Sec where
  value : Nat
  size : Nat
  deriving DecidableEq, Repr

/-- `Section(v)` with auto-computed size (spec §4.1). -/
def Sec.auto (v : Nat) : Sec := ⟨v, byteSizeOf v⟩

/-- Serialization of one field. -/
def Sec.toBytes (s : Sec) : List Nat := toBytesBE s.value s.size

/-- `Packet.to_bytes`: concatenation of the member fields' bytes
(spec §4.1: "`serialize(Frame)` concatenates each field's bytes in order"). -/
def packetBytes (ss : List Sec) : List Nat := ss.flatMap Sec.toBytes

/-- `BlaubergProtocol._swap_high_low` with the default `swap_size = 8`:
`value << 8 & 0xFF00 | value >> 8 & 0x00FF`. -/
def swapHighLow (v : Nat) : Nat := ((v <<< 8) &&& 65280) ||| ((v >>> 8) &&& 255)

/-- `BlaubergProtocol._checksum`: the checksum value is the swap of the sum
of the covered bytes; it is stored in a 2-byte section. -/
def checksumValue (bs : List Nat) : Nat := swapHighLow bs.sum

/-- The 2-byte checksum section `Section(self._swap_high_low(check_sum), 2)`. -/
def checksumSec (bs : List Nat) : Sec := ⟨checksumValue bs, 2⟩

/-- The specification's description of the checksum (§4.2): byte-swap of
`S = sum mod 65536`, low byte moved to the high position and vice versa. -/
def specByteSwap (s : Nat) : Nat := s % 256 * 256 + s / 256

/-! ### Arithmetic facts about the byte primitives -/

theorem byteSizeF_pos (fuel v : Nat) : 1 ≤ byteSizeF fuel v := by
  induction fuel generalizing v with
  | zero => simp [byteSizeF]
  | succ fuel ih =>
    by_cases h : v < 256 <;> simp [byteSizeF, h] <;> omega

theorem byteSizeF_spec (fuel v : Nat) (h : v ≤ fuel) :
    v < 256 ^ byteSizeF fuel v := by
  induction fuel generalizing v with
  | zero =>
    have : v = 0 := by omega
    simp [byteSizeF, this]
  | succ fuel ih =>
    by_cases hv : v < 256
    · simpa [byteSizeF, hv] using hv
    · have hlt : v / 256 ≤ fuel := by omega
      have := ih (v / 256) hlt
      have hpow : v < 256 ^ (byteSizeF fuel (v / 256) + 1) := by
        have h256 : v < (v / 256 + 1) * 256 := by omega
        calc v < (v / 256 + 1) * 256 := h256
          _ ≤ 256 ^ byteSizeF fuel (v / 256) * 256 := by
              have : v / 256 + 1 ≤ 256 ^ byteSizeF fuel (v / 256) := this
              exact Nat.mul_le_mul_right 256 this
          _ = 256 ^ (byteSizeF fuel (v / 256) + 1) := by rw [Nat.pow_succ]
      simpa [byteSizeF, hv] using hpow

theorem byteSizeOf_pos (v : Nat) : 1 ≤ byteSizeOf v := byteSizeF_pos v v

theorem lt_pow_byteSizeOf (v : Nat) : v < 256 ^ byteSizeOf v :=
  byteSizeF_spec v v (Nat.le_refl v)

theorem byteSizeOf_lt_256 {v : Nat} (h : v < 256) : byteSizeOf v = 1 := by
  cases v with
  | zero => rfl
  | succ n => simp [byteSizeOf, byteSizeF, h]

theorem toBytesBE_length (v n : Nat) : (toBytesBE v n).length = n := by
  induction n generalizing v with
  | zero => rfl
  | succ n ih => simp [toBytesBE, ih]

theorem toBytesBE_lt (v n : Nat) : ∀ b ∈ toBytesBE v n, b < 256 := by
  induction n generalizing v with
  | zero => intro b hb; simp [toBytesBE] at hb
  | succ n ih =>
    intro b hb
    simp only [toBytesBE, List.mem_append, List.mem_singleton] at hb
    rcases hb with hb | hb
    · exact ih (v / 256) b hb
    · subst hb; exact Nat.mod_lt _ (by omega)

theorem fromBytesBE_append_singleton (bs : List Nat) (b : Nat) :
    fromBytesBE (bs ++ [b]) = fromBytesBE bs * 256 + b := by
  simp [fromBytesBE, List.foldl_append]

theorem fromBytesBE_toBytesBE {v n : Nat} (h : v < 256 ^ n) :
    fromBytesBE (toBytesBE v n) = v := by
  induction n generalizing v with
  | zero => simp [toBytesBE, fromBytesBE]; omega
  | succ n ih =>
    have hdiv : v / 256 < 256 ^ n := by
      rw [Nat.div_lt_iff_lt_mul (by omega)]
      calc v < 256 ^ (n + 1) := h
        _ = 256 ^ n * 256 := by rw [Nat.pow_succ]
    rw [toBytesBE, fromBytesBE_append_singleton, ih hdiv]
    omega

theorem fromBytesBE_auto (v : Nat) :
    fromBytesBE (toBytesBE v (byteSizeOf v)) = v :=
  fromBytesBE_toBytesBE (lt_pow_byteSizeOf v)

theorem toBytesBE_fromBytesBE (bs : List Nat) (h : ∀ b ∈ bs, b < 256) :
    toBytesBE (fromBytesBE bs) bs.length = bs := by
  induction bs using List.reverseRecOn with
  | nil => rfl
  | append_singleton bs b ih =>
    have hb : b < 256 := h b (by simp)
    have hbs : ∀ x ∈ bs, x < 256 := fun x hx => h x (by simp [hx])
    have hlen : bs.length + 1 = bs.length + 1 := rfl
    simp only [List.length_append, List.length_singleton]
    rw [fromBytesBE_append_singleton, toBytesBE]
    have hdiv : (fromBytesBE bs * 256 + b) / 256 = fromBytesBE bs := by omega
    have hmod : (fromBytesBE bs * 256 + b) % 256 = b := by omega
    rw [hdiv, hmod, ih hbs]

theorem toBytesBE_one {v : Nat} (h : v < 256) : toBytesBE v 1 = [v] := by
  simp [toBytesBE, Nat.mod_eq_of_lt h]

theorem Sec_auto_toBytes_lt {v : Nat} (h : v < 256) :
    (Sec.auto v).toBytes = [v] := by
  simp [Sec.auto, Sec.toBytes, byteSizeOf_lt_256 h, toBytesBE_one h]

theorem Sec_auto_toBytes (v : Nat) :
    (Sec.auto v).toBytes = toBytesBE v (byteSizeOf v) := rfl

/-! ### The checksum equals the spec's byte-swap of the sum mod 65536 -/

theorem shiftLeft_and_mask (v : Nat) : (v <<< 8) &&& 65280 = v % 256 * 256 := by
  have hmask : ∀ i, Nat.testBit 65280 i = (decide (i ≥ 8) && decide (i - 8 < 8)) := by
    intro i
    have h : (65280 : Nat) = (2 ^ 8 - 1) <<< 8 := by decide
    rw [h, Nat.testBit_shiftLeft, Nat.testBit_two_pow_sub_one]
  have hr : v % 256 * 256 = (v % 256) <<< 8 := by rw [Nat.shiftLeft_eq]
  rw [hr]
  apply Nat.eq_of_testBit_eq
  intro i
  rw [Nat.testBit_and, hmask, Nat.testBit_shiftLeft, Nat.testBit_shiftLeft]
  have h256 : (256 : Nat) = 2 ^ 8 := by norm_num
  rw [h256, Nat.testBit_mod_two_pow]
  by_cases h8 : i ≥ 8
  · by_cases h16 : i - 8 < 8 <;> simp [h8, h16]
  · simp [h8]

theorem shiftRight_and_mask (v : Nat) : (v >>> 8) &&& 255 = v / 256 % 256 := by
  have h255 : (255 : Nat) = 2 ^ 8 - 1 := by norm_num
  have h256 : (256 : Nat) = 2 ^ 8 := by norm_num
  rw [h255, Nat.and_pow_two_sub_one_eq_mod, Nat.shiftRight_eq_div_pow, h256]

theorem swapHighLow_eq (v : Nat) :
    swapHighLow v = v % 256 * 256 + v / 256 % 256 := by
  have hb : v / 256 % 256 < 2 ^ 8 := by
    have := Nat.mod_lt (v / 256) (y := 256) (by omega)
    omega
  have hor := Nat.mul_add_lt_is_or hb (v % 256)
  have h2 : (2 : Nat) ^ 8 = 256 := by norm_num
  calc swapHighLow v = v % 256 * 256 ||| v / 256 % 256 := by
        rw [swapHighLow, shiftLeft_and_mask, shiftRight_and_mask]
    _ = 2 ^ 8 * (v % 256) ||| v / 256 % 256 := by rw [h2, Nat.mul_comm]
    _ = 2 ^ 8 * (v % 256) + v / 256 % 256 := (hor).symm
    _ = v % 256 * 256 + v / 256 % 256 := by rw [h2, Nat.mul_comm]

theorem swapHighLow_eq_specByteSwap (v : Nat) :
    swapHighLow v = specByteSwap (v % 65536) := by
  rw [swapHighLow_eq, specByteSwap]
  have h1 : v % 65536 % 256 = v % 256 := Nat.mod_mod_of_dvd v (by norm_num)
  have h2 : v % 65536 / 256 = v / 256 % 256 := by
    have : (65536 : Nat) = 256 * 256 := by norm_num
    rw [this, Nat.mod_mul_right_div_self]
  rw [h1, h2]

theorem checksumValue_eq_spec (bs : List Nat) :
    checksumValue bs = specByteSwap (bs.sum % 65536) :=
  swapHighLow_eq_specByteSwap bs.sum

/-! ### The decoder (`BlaubergProtocol._decode_data`)

`dict[int, Optional[int]]` is modelled as an insertion-ordered association
list.  `dlookup m k = none` models `k not in m`; `dlookup m k = some none`
models the key being present with value `None`. -/

/-- Python `dict[int, Optional[int]]` with insertion order. -/
abbrev DMap := List (Nat × Option Nat)

/-- Key lookup in a `DMap` (`m[k]` / `k in m`). -/
def dlookup (m : DMap) (k : Nat) : Option (Option Nat) :=
  match m with
  | [] => none
  | (k₁, v₁) :: r => if k₁ = k then some v₁ else dlookup r k

/-- `m[k] = v`: overwrite in place if the key exists, append otherwise. -/
def dinsert (m : DMap) (k : Nat) (v : Option Nat) : DMap :=
  match m with
  | [] => [(k, v)]
  | (k₁, v₁) :: r => if k₁ = k then (k, v) :: r else (k₁, v₁) :: dinsert r k v

/-- `Section.Template(2).set_bytes(lead_byte + tail_byte).value`: the
parameter id reconstructed from the carried `lead_byte` (a byte string,
empty before the first `LEAD_INDICATOR`) and the tail byte. -/
def paramOf (lead : List Nat) (t : Nat) : Nat := fromBytesBE (lead ++ [t])

/-- The scan loop of `_decode_data`, lines 137-175.  One unit of fuel is
spent per iteration; every iteration consumes at least one input byte, so
`decodeData` below always supplies enough fuel and the fuel-exhaustion
branch is unreachable.  `none` models a raised `IndexError`
(`raw_data[index]` with `index` past the end). -/
def decodeLoopF : Nat → List Nat → List Nat → DMap → Option DMap
  | _, [], _, values => some values
  | 0, _ :: _, _, _ => none
  | fuel + 1, f :: rest, lead, values =>
    if f = 0xFF then
      -- LEAD_INDICATOR: read the new lead byte
      match rest with
      | [] => none
      | l :: rest₁ => decodeLoopF fuel rest₁ [l] values
    else if f = 0xFD then
      -- INVALID: read the tail byte; record absence unless already present
      match rest with
      | [] => none
      | t :: rest₁ =>
        let p := paramOf lead t
        decodeLoopF fuel rest₁ lead
          (if (dlookup values p).isSome then values else dinsert values p none)
    else if f = 0xFE then
      -- DYNAMIC_VAL: read length, bounds-check, read tail and value bytes
      match rest with
      | [] => none
      | len :: rest₁ =>
        if rest₁.length < len then
          -- `(index + byte_length) > len(raw_data)`: warn and return
          some values
        else
          match rest₁ with
          | [] => none  -- only reachable with len = 0: tail read raises
          | t :: rest₂ =>
            decodeLoopF fuel (rest₂.drop len) lead
              (dinsert values (paramOf lead t) (some (fromBytesBE (rest₂.take len))))
    else
      -- default: current byte is the tail, next byte the 1-byte value
      match rest with
      | [] => none
      | v :: rest₁ =>
        decodeLoopF fuel rest₁ lead (dinsert values (paramOf lead f) (some v))

/-- `BlaubergProtocol._decode_data`: scan the raw data block starting with
an empty carried lead byte and an empty mapping. -/
def decodeData (raw : List Nat) : Option DMap := decodeLoopF raw.length raw [] []

theorem dlookup_dinsert_self (m : DMap) (k : Nat) (v : Option Nat) :
    dlookup (dinsert m k v) k = some v := by
  induction m with
  | nil => simp [dinsert, dlookup]
  | cons hd tl ih =>
    obtain ⟨k₁, v₁⟩ := hd
    by_cases h : k₁ = k <;> simp [dinsert, dlookup, h, ih]

theorem dlookup_dinsert_ne (m : DMap) {k k₂ : Nat} (v : Option Nat)
    (h : k₂ ≠ k) : dlookup (dinsert m k v) k₂ = dlookup m k₂ := by
  have hne : ¬k = k₂ := fun hh => h hh.symm
  induction m with
  | nil => simp [dinsert, dlookup, hne]
  | cons hd tl ih =>
    obtain ⟨k₁, v₁⟩ := hd
    by_cases h₁ : k₁ = k
    · subst h₁
      simp [dinsert, dlookup, hne]
    · simp [dinsert, dlookup, h₁, ih]

/-! ### Protocol constants (class attributes of `BlaubergProtocol`) -/

/-- `HEADER = Section(0xFDFD)` (auto-sized to 2 bytes). -/
def HEADER : Sec := Sec.auto 0xFDFD

/-- `PROTOCOL_TYPE = Section(0x02)`. -/
def PROTOCOL_TYPE : Sec := Sec.auto 0x02

/-- `LEAD_INDICATOR = Section(0xFF)`. -/
def LEAD_INDICATOR : Sec := Sec.auto 0xFF

/-- `DYNAMIC_VAL = Section(0xFE)`. -/
def DYNAMIC_VAL : Sec := Sec.auto 0xFE

/-- `FUNC.R = Section(0x01)`. -/
def FUNC_R : Sec := Sec.auto 0x01

/-- `FUNC.RW = Section(0x03)`. -/
def FUNC_RW : Sec := Sec.auto 0x03

theorem LEAD_INDICATOR_toBytes : LEAD_INDICATOR.toBytes = [0xFF] := rfl

theorem DYNAMIC_VAL_toBytes : DYNAMIC_VAL.toBytes = [0xFE] := rfl

/-! ### Outgoing encoding (`BlaubergProtocol._construct_command_block`) -/

/-- `raw[0]` for `raw = Section(param, 2).to_bytes()`: the lead byte. -/
def leadOf (p : Nat) : Nat := p / 256 % 256

/-- `raw[1]` for `raw = Section(param, 2).to_bytes()`: the tail byte. -/
def tailOf (p : Nat) : Nat := p % 256

theorem toBytesBE_two (p : Nat) : toBytesBE p 2 = [leadOf p, tailOf p] := rfl

/-- One step of filling `params_by_lead`: append the tail to the bucket of
its lead, creating the bucket at the end on first sight (Python dicts keep
insertion order). -/
def bucketAdd (acc : List (Nat × List Nat)) (l t : Nat) : List (Nat × List Nat) :=
  match acc with
  | [] => [(l, [t])]
  | (l₁, ts) :: r => if l₁ = l then (l₁, ts ++ [t]) :: r else (l₁, ts) :: bucketAdd r l t

/-- The `params_by_lead` dictionary built by the first loop of
`_construct_command_block` from the (sorted) parameter ids. -/
def groupByLead (ids : List Nat) : List (Nat × List Nat) :=
  ids.foldl (fun acc p => bucketAdd acc (leadOf p) (tailOf p)) []

/-- The sections appended for one tail byte inside a lead group
(`_construct_command_block`, lines 194-205).  The parameter id is rebuilt
as `Section(byte_size=2).set_bytes(Section(lead).to_bytes() +
Section(tail).to_bytes()).value` and looked up in the input mapping;
`none` models the `KeyError` that `parameters[param]` raises when the
rebuilt id is not a key (possible only for ids outside 16 bits). -/
def encTailSecs (params : DMap) (l t : Nat) : Option (List Sec) :=
  let param := fromBytesBE ((Sec.auto l).toBytes ++ (Sec.auto t).toBytes)
  match dlookup params param with
  | none => none
  | some (some v) => some [DYNAMIC_VAL, Sec.auto (Sec.auto v).size, Sec.auto t, Sec.auto v]
  | some none => some [Sec.auto t]

/-- The inner `for tail in params_by_lead[lead]` loop: concatenation of
the per-tail sections, propagating a `KeyError` (`none`). -/
def encTails (params : DMap) (l : Nat) : List Nat → Option (List Sec)
  | [] => some []
  | t :: r =>
    match encTailSecs params l t with
    | none => none
    | some s => (encTails params l r).map (fun rest => s ++ rest)

/-- The outer `for lead in params_by_lead` loop: each group contributes
`LEAD_INDICATOR | lead` followed by its tail sections. -/
def encGroups (params : DMap) : List (Nat × List Nat) → Option (List Sec)
  | [] => some []
  | g :: r =>
    match encTails params g.1 g.2 with
    | none => none
    | some s =>
      (encGroups params r).map (fun rest => ([LEAD_INDICATOR, Sec.auto g.1] ++ s) ++ rest)

/-- `params = list(parameters.keys()); params.sort()`. -/
def sortedIds (params : DMap) : List Nat :=
  List.insertionSort (· ≤ ·) (params.map Prod.fst)

/-- `BlaubergProtocol._construct_command_block`: sort the ids, group them
by lead byte, and emit `LEAD_INDICATOR | lead` then the per-tail sections
for each group. -/
def constructCommandBlock (params : DMap) : Option (List Sec) :=
  encGroups params (groupByLead (sortedIds params))

/-! ### Frame construction (`_protocol` and `_command`) -/

/-- `BlaubergProtocol._protocol`: the command frame template.  Pending
templates (`Section.Template(n)`, `ExpandingSection()`) are modelled as
sections with placeholder value `0`; `_command` overwrites every one of
them before the frame is serialized.  If the password is blank the
password-content slot is removed (`protocol.pop(5)`). -/
def protocolSecs (idLen pwdLen : Nat) : List Sec :=
  let protocol := [HEADER, PROTOCOL_TYPE, Sec.auto idLen, ⟨0, idLen⟩,
    Sec.auto pwdLen, ⟨0, pwdLen⟩, ⟨0, 1⟩, ⟨0, 0⟩, ⟨0, 2⟩]
  if pwdLen = 0 then protocol.eraseIdx 5 else protocol

/-- `BlaubergProtocol._command`: walk the template by index, filling in the
device id, password size (and bytes when non-blank), function code, data
block (re-serialized with its own byte size) and finally the checksum over
`command[1:-1]`. -/
def commandSecs (devId pwd : List Nat) (func : Sec) (data : List Nat) : List Sec :=
  let c₀ := protocolSecs devId.length pwd.length
  let c₁ := c₀.set 3 ⟨fromBytesBE devId, devId.length⟩
  let c₂ := c₁.set 4 (Sec.auto pwd.length)
  let c₃ := if pwd.length ≠ 0 then c₂.set 5 ⟨fromBytesBE pwd, pwd.length⟩ else c₂
  let fi := if pwd.length = 0 then 5 else 6
  let c₄ := c₃.set fi func
  let c₅ := c₄.set (fi + 1) ⟨fromBytesBE data, data.length⟩
  c₅.set (fi + 2) (checksumSec (packetBytes ((c₅.drop 1).dropLast)))

/-- Line 126 of `_communicate_block`: the expected checksum of a parsed
response is `self._checksum(Packet(response[1:-1])).value` — the same
`_checksum` used for outgoing frames. -/
def expectedChecksumValue (resp : List Sec) : Nat :=
  (checksumSec (packetBytes ((resp.drop 1).dropLast))).value

/-! ### Client operations downstream of the transport

The UDP transport itself is out of scope; the operations are modelled as
functions of the raw response data block (the bytes of `response[-2]` that
`_communicate_block` hands to `_decode_data`). -/

/-- Python `x or 0` for `x : Optional[int]`. -/
def pythonOr (x : Option Nat) (d : Nat) : Nat :=
  match x with
  | none => d
  | some v => if v = 0 then d else v

/-- `read_params`, transport elided: the decoded response mapping is
returned as-is, so absent (`None`) entries are preserved. -/
def readParamsResult (respBlock : List Nat) : Option DMap := decodeData respBlock

/-- `read_param`: `params = self.read_params([param]); if param not in
params: return 0; return params[param] or 0`. -/
def readParamResult (param : Nat) (respBlock : List Nat) : Option Nat :=
  match readParamsResult respBlock with
  | none => none
  | some m =>
    match dlookup m param with
    | none => some 0
    | some ov => some (pythonOr ov 0)

/-- `write_params`, transport elided: the decoded response mapping is
returned as-is. -/
def writeParamsResult (respBlock : List Nat) : Option DMap := decodeData respBlock

/-- `write_param`: `return self._decode_data(raw_data)[parameter] or 0`.
The subscript raises `KeyError` (modelled by `none`) when the parameter is
not a key of the decoded mapping. -/
def writeParamResult (param : Nat) (respBlock : List Nat) : Option Nat :=
  match decodeData respBlock with
  | none => none
  | some m =>
    match dlookup m param with
    | none => none
    | some ov => some (pythonOr ov 0)

/-! ### Client construction (`BlaubergProtocol.__init__`) -/

/-- Modelled from the spec: `packet.py` is absent from the sources, so the
behaviour of `Section(len(device_id)) == 0` is not in evidence.  Per §4.3
("a zero-length device-id is a construction-time error") and §7
("Construction error: empty device-id — fatal at client construction"),
comparing a Section against an integer compares its stored value. -/
def secEqInt (s : Sec) (n : Nat) : Bool := s.value == n

/-- The immutable client configuration retained by `__init__`. -/
structure ProtocolClient where
  device_id : List Nat
  password : List Nat
  deriving DecidableEq, Repr

/-- `BlaubergProtocol.__init__` restricted to its observable effect:
store the configuration, after raising `ValueError` (modelled by `none`)
when `self._id_size == 0`. -/
def mkBlaubergProtocol (devId pwd : List Nat) : Option ProtocolClient :=
  if secEqInt (Sec.auto devId.length) 0 then none
  else some ⟨devId, pwd⟩

/-! ### Claim theorems -/

/-- C1: the claim states that `_decode_data` returns a mapping for every
byte sequence without raising.  The code violates it: when the buffer ends
directly after a marker byte (or after a `DYNAMIC_VAL` length byte of 0)
the unguarded `raw_data[index]` reads past the end and raises `IndexError`
(modelled by `none`): `b"\xff"`, `b"\x00"`, `b"\xfd"` and `b"\xfe\x00"`
all raise instead of degrading to a partial mapping. -/
theorem C1_truncated_input_raises :
    decodeData [0xFF] = none ∧ decodeData [0x00] = none ∧
    decodeData [0xFD] = none ∧ decodeData [0xFE, 0x00] = none := by
  decide

/-- C4: the raw data block `FF 00 05 0A FD 06 FE 02 07 01 2C` decodes to
exactly the mapping `{5: 10, 6: absent, 7: 300}`: parameter 5 via the
default single-byte encoding under lead `0x00`, parameter 6 marked absent
by the INVALID marker, parameter 7 a 2-byte dynamic value `0x012C = 300`. -/
theorem C4_decoding_scenario :
    decodeData [0xFF, 0x00, 0x05, 0x0A, 0xFD, 0x06, 0xFE, 0x02, 0x07, 0x01, 0x2C]
      = some [(5, some 10), (6, none), (7, some 300)] := by
  decide

/-- C6 counterexample: the claim says the decoder stops and returns the
mapping accumulated so far whenever the `DYNAMIC_VAL` value bytes would
extend past the end of the buffer.  On `FE 01 07` the single value byte
(which would sit after the tail byte `07`, past the end) does extend past
the buffer, yet the decoder does not stop with the accumulated (empty)
mapping: the guard compares the length against the remaining bytes
including the tail byte, so it proceeds and records the truncated value
`{7: 0}`. -/
theorem C6_counterexample :
    decodeData [0xFE, 0x01, 0x07] = some [(7, some 0)] ∧
    decodeData [0xFE, 0x01, 0x07] ≠ some [] := by
  decide

/-- C6 amended: if a `DYNAMIC_VAL` length byte `L` is strictly greater
than the number of bytes remaining after the length byte (a count that
includes the tail byte), the decoder stops scanning immediately and
returns the mapping accumulated so far without raising; in particular the
data block `FE 05 01` decodes to the empty mapping. -/
theorem C6_truncated_dynamic_returns_partial :
    (∀ fuel lead values len rest, rest.length < len →
       decodeLoopF (fuel + 1) (0xFE :: len :: rest) lead values = some values)
    ∧ decodeData [0xFE, 0x05, 0x01] = some [] := by
  refine ⟨fun fuel lead values len rest h => ?_, by decide⟩
  simp [decodeLoopF, h]

/-- C6 witness: the amended stop-scanning rule applied at the concrete
scenario `FE 05 01`. -/
theorem C6_truncated_dynamic_returns_partial_witness :
    decodeLoopF 3 [0xFE, 0x05, 0x01] [] [] = some [] :=
  C6_truncated_dynamic_returns_partial.1 2 [] [] 5 [1] (by decide)

/-- C7: constructing a client with an empty device-id fails at
construction time, while any non-empty device-id succeeds.  (Settled
against the spec-modelled Section-to-integer comparison `secEqInt`, since
`packet.py` is not among the sources.) -/
theorem C7_empty_device_id_fatal :
    (∀ pwd, mkBlaubergProtocol [] pwd = none)
    ∧ (∀ devId pwd, devId ≠ [] → (mkBlaubergProtocol devId pwd).isSome) := by
  constructor
  · intro pwd
    simp [mkBlaubergProtocol, secEqInt, Sec.auto]
  · intro devId pwd h
    have : devId.length ≠ 0 := fun hl => h (List.length_eq_zero.mp hl)
    simp [mkBlaubergProtocol, secEqInt, Sec.auto, this]

/-- C7 witness: construction fails on the empty device-id and succeeds on
the one-byte device-id `[0x44]`. -/
theorem C7_empty_device_id_fatal_witness :
    mkBlaubergProtocol [] [0x31] = none
    ∧ (mkBlaubergProtocol [0x44] [0x31]).isSome :=
  ⟨C7_empty_device_id_fatal.1 [0x31],
   C7_empty_device_id_fatal.2 [0x44] [0x31] (by decide)⟩

/-- C8: the claim says `write_param` treats a parameter that is missing
from the decoded response mapping as value 0.  The code instead subscripts
the decoded dict directly (`self._decode_data(raw_data)[parameter] or 0`),
which raises `KeyError` (modelled by `none`) when the key is missing — for
example for an empty response data block, whose decoded mapping is empty —
while `read_param` on the same response returns 0 as claimed. -/
theorem C8_write_param_missing_key_raises :
    writeParamResult 1 [] = none ∧ readParamResult 1 [] = some 0 := by
  decide

/-! ### Presence of a decoded value is never downgraded (C10) -/

theorem dlookup_dinsert_present (values : DMap) (p₁ : Nat) (nv : Nat)
    {p v : Nat} (hp : dlookup values p = some (some v)) :
    ∃ u, dlookup (dinsert values p₁ (some nv)) p = some (some u) := by
  by_cases h : p₁ = p
  · subst h
    exact ⟨nv, dlookup_dinsert_self values p₁ (some nv)⟩
  · exact ⟨v, by rw [dlookup_dinsert_ne values (some nv) (fun hh => h hh.symm), hp]⟩

theorem decodeLoopF_presence_mono :
    ∀ fuel raw lead values result p v,
      decodeLoopF fuel raw lead values = some result →
      dlookup values p = some (some v) →
      ∃ w, dlookup result p = some (some w) := by
  intro fuel
  induction fuel with
  | zero =>
    intro raw lead values result p v h hp
    cases raw with
    | nil =>
      simp only [decodeLoopF, Option.some.injEq] at h
      exact ⟨v, h ▸ hp⟩
    | cons f rest => simp [decodeLoopF] at h
  | succ fuel ih =>
    intro raw lead values result p v h hp
    cases raw with
    | nil =>
      simp only [decodeLoopF, Option.some.injEq] at h
      exact ⟨v, h ▸ hp⟩
    | cons f rest =>
      by_cases h1 : f = 0xFF
      · cases rest with
        | nil => simp [decodeLoopF, h1] at h
        | cons l rest₁ =>
          simp only [decodeLoopF, h1, if_pos, if_true] at h
          exact ih rest₁ [l] values result p v h hp
      · by_cases h2 : f = 0xFD
        · cases rest with
          | nil => simp [decodeLoopF, h1, h2] at h
          | cons t rest₁ =>
            simp only [decodeLoopF, h1, h2, if_false, if_pos, if_true] at h
            set p₁ := paramOf lead t with hp₁
            by_cases hcase : (dlookup values p₁).isSome
            · rw [if_pos hcase] at h
              exact ih rest₁ lead values result p v h hp
            · rw [if_neg hcase] at h
              refine ih rest₁ lead _ result p v h ?_
              have hne : p₁ ≠ p := by
                intro hh
                exact hcase (by rw [hh, hp]; rfl)
              rw [dlookup_dinsert_ne values none (fun hh => hne hh.symm), hp]
        · by_cases h3 : f = 0xFE
          · cases rest with
            | nil => simp [decodeLoopF, h1, h2, h3] at h
            | cons len rest₁ =>
              simp only [decodeLoopF, h1, h2, h3, if_false, if_pos, if_true] at h
              by_cases htr : rest₁.length < len
              · rw [if_pos htr] at h
                exact ⟨v, (Option.some.inj h) ▸ hp⟩
              · rw [if_neg htr] at h
                cases rest₁ with
                | nil => exact Option.noConfusion h
                | cons t rest₂ =>
                  obtain ⟨u, hu⟩ := dlookup_dinsert_present values (paramOf lead t)
                    (fromBytesBE (rest₂.take len)) hp
                  exact ih (rest₂.drop len) lead _ result p u h hu
          · cases rest with
            | nil => simp [decodeLoopF, h1, h2, h3] at h
            | cons w rest₁ =>
              simp only [decodeLoopF, h1, h2, h3, if_false] at h
              obtain ⟨u, hu⟩ := dlookup_dinsert_present values (paramOf lead f) w hp
              exact ih rest₁ lead _ result p u h hu

/-- C10: throughout the decoder's scan, a parameter id mapped to a present
value is never changed to absent by any later byte.  Conjunct 1: any
successful continuation of the scan from a state in which `p` is present
ends with `p` still present.  Conjunct 2: an INVALID (`0xFD`) step on an
id already present leaves the mapping entirely unchanged.  Conjunct 3: a
default single-byte step unconditionally overwrites the id with the new
present value.  Conjunct 4: a DYNAMIC_VAL (`0xFE`) step that passes the
bounds check unconditionally overwrites the id with the new present
value. -/
theorem C10_present_never_downgraded :
    (∀ fuel raw lead values result p v,
       decodeLoopF fuel raw lead values = some result →
       dlookup values p = some (some v) →
       ∃ w, dlookup result p = some (some w))
    ∧ (∀ fuel rest lead values t v,
         dlookup values (paramOf lead t) = some (some v) →
         decodeLoopF (fuel + 1) (0xFD :: t :: rest) lead values
           = decodeLoopF fuel rest lead values)
    ∧ (∀ fuel rest lead values t v, t ≠ 0xFF → t ≠ 0xFD → t ≠ 0xFE →
         decodeLoopF (fuel + 1) (t :: v :: rest) lead values
           = decodeLoopF fuel rest lead (dinsert values (paramOf lead t) (some v))
         ∧ dlookup (dinsert values (paramOf lead t) (some v)) (paramOf lead t)
             = some (some v))
    ∧ (∀ fuel len t (rest : List Nat) lead values, ¬(t :: rest).length < len →
         decodeLoopF (fuel + 1) (0xFE :: len :: t :: rest) lead values
           = decodeLoopF fuel (rest.drop len) lead
               (dinsert values (paramOf lead t) (some (fromBytesBE (rest.take len))))
         ∧ dlookup
             (dinsert values (paramOf lead t) (some (fromBytesBE (rest.take len))))
             (paramOf lead t) = some (some (fromBytesBE (rest.take len)))) := by
  refine ⟨decodeLoopF_presence_mono, ?_, ?_, ?_⟩
  · intro fuel rest lead values t v hv
    have hs : (dlookup values (paramOf lead t)).isSome = true := by
      rw [hv]; rfl
    simp [decodeLoopF, hs]
  · intro fuel rest lead values t v h1 h2 h3
    exact ⟨by simp [decodeLoopF, h1, h2, h3],
           dlookup_dinsert_self values (paramOf lead t) (some v)⟩
  · intro fuel len t rest lead values htr
    have htr' : ¬rest.length + 1 < len := by simpa using htr
    exact ⟨by simp [decodeLoopF, htr'],
           dlookup_dinsert_self values (paramOf lead t) _⟩

/-- C10 witness: the invariant applied at concrete inputs — an INVALID
marker for the already-present id 5 leaves `{5: 9}` unchanged and 5 stays
present. -/
theorem C10_present_never_downgraded_witness :
    (∃ w, dlookup [(5, some 9)] 5 = some (some w)) ∧
    decodeLoopF 2 [0xFD, 0x05] [] [(5, some 9)] = decodeLoopF 1 [] [] [(5, some 9)] :=
  ⟨C10_present_never_downgraded.1 2 [0xFD, 0x05] [] [(5, some 9)] [(5, some 9)] 5 9
      (by decide) (by decide),
   C10_present_never_downgraded.2.1 1 [] [] [(5, some 9)] 5 9 (by decide)⟩

/-! ### Structure of the lead-byte grouping

`_construct_command_block` walks the sorted parameter ids, appending each
tail byte to the bucket of its lead byte.  The lemmas below establish the
shape of the resulting `params_by_lead` for sorted 16-bit ids: bucket
leads strictly ascending (hence one bucket per distinct lead), tails
strictly ascending inside each bucket, and the buckets jointly enumerating
exactly the input ids. -/

theorem leadOf_eq_div {p : Nat} (h : p < 65536) : leadOf p = p / 256 := by
  have : p / 256 < 256 := by omega
  simp [leadOf, Nat.mod_eq_of_lt this]

theorem lead_mul_add_tail {p : Nat} (h : p < 65536) :
    leadOf p * 256 + tailOf p = p := by
  rw [leadOf_eq_div h, tailOf]
  omega

theorem leadOf_mono {p q : Nat} (hp : p < 65536) (hq : q < 65536) (hpq : p < q) :
    leadOf p ≤ leadOf q := by
  rw [leadOf_eq_div hp, leadOf_eq_div hq]
  exact Nat.div_le_div_right (Nat.le_of_lt hpq)

theorem tailOf_lt_of_leadOf_eq {p q : Nat} (hp : p < 65536) (hq : q < 65536)
    (hpq : p < q) (hl : leadOf p = leadOf q) : tailOf p < tailOf q := by
  rw [leadOf_eq_div hp, leadOf_eq_div hq] at hl
  simp only [tailOf]
  omega

theorem leadOf_lt_256 (p : Nat) : leadOf p < 256 := Nat.mod_lt _ (by omega)

theorem tailOf_lt_256 (p : Nat) : tailOf p < 256 := Nat.mod_lt _ (by omega)

theorem bucketAdd_not_mem {acc : List (Nat × List Nat)} {l : Nat} (t : Nat)
    (h : l ∉ acc.map Prod.fst) : bucketAdd acc l t = acc ++ [(l, [t])] := by
  induction acc with
  | nil => rfl
  | cons hd tl ih =>
    obtain ⟨l₁, ts⟩ := hd
    simp only [List.map_cons, List.mem_cons, not_or] at h
    have h1 : ¬l₁ = l := fun hh => h.1 hh.symm
    simp [bucketAdd, h1, ih h.2]

theorem bucketAdd_last {A : List (Nat × List Nat)} {l : Nat} (ts : List Nat)
    (t : Nat) (h : l ∉ A.map Prod.fst) :
    bucketAdd (A ++ [(l, ts)]) l t = A ++ [(l, ts ++ [t])] := by
  induction A with
  | nil => simp [bucketAdd]
  | cons hd tl ih =>
    obtain ⟨l₁, ts₁⟩ := hd
    simp only [List.map_cons, List.mem_cons, not_or] at h
    have h1 : ¬l₁ = l := fun hh => h.1 hh.symm
    simp [bucketAdd, h1, ih h.2]

theorem last_bucket_decomp (acc : List (Nat × List Nat)) (l : Nat)
    (hmem : l ∈ acc.map Prod.fst)
    (hch : List.Chain' (· < ·) (acc.map Prod.fst))
    (hle : ∀ g ∈ acc, g.1 ≤ l) :
    ∃ A ts, acc = A ++ [(l, ts)] ∧ l ∉ A.map Prod.fst := by
  induction acc using List.reverseRecOn with
  | nil => simp at hmem
  | append_singleton B g _ =>
    obtain ⟨l₂, ts₂⟩ := g
    have hpw : List.Pairwise (· < ·) ((B ++ [(l₂, ts₂)]).map Prod.fst) :=
      List.chain'_iff_pairwise.mp hch
    rw [List.map_append] at hpw
    have hlt : ∀ x ∈ B.map Prod.fst, x < l₂ := by
      intro x hx
      have := (List.pairwise_append.mp hpw).2.2 x hx l₂ (by simp)
      exact this
    have hl₂ : l₂ = l := by
      rcases (by simpa using hmem : l ∈ B.map Prod.fst ∨ l = l₂) with hmem₁ | hmem₁
      · have h₁ : l < l₂ := hlt l hmem₁
        have h₂ : l₂ ≤ l := hle (l₂, ts₂) (by simp)
        omega
      · omega
    subst hl₂
    exact ⟨B, ts₂, rfl, fun hc => absurd (hlt _ hc) (by omega)⟩

/-- The representation function: the ids enumerated by a bucket list. -/
def bucketsIds (gs : List (Nat × List Nat)) : List Nat :=
  gs.flatMap (fun g => g.2.map (fun t => g.1 * 256 + t))

theorem foldl_bucketAdd_spec :
    ∀ (ids : List Nat) (acc : List (Nat × List Nat)),
      List.Sorted (· < ·) ids →
      (∀ p ∈ ids, p < 65536) →
      List.Chain' (· < ·) (acc.map Prod.fst) →
      (∀ g ∈ acc, g.2 ≠ [] ∧ List.Chain' (· < ·) g.2 ∧ g.1 < 256 ∧ ∀ t ∈ g.2, t < 256) →
      (∀ p ∈ ids, ∀ g ∈ acc,
         g.1 ≤ leadOf p ∧ (g.1 = leadOf p → ∀ t ∈ g.2, t < tailOf p)) →
      List.Chain' (· < ·)
          ((ids.foldl (fun a p => bucketAdd a (leadOf p) (tailOf p)) acc).map Prod.fst)
      ∧ (∀ g ∈ ids.foldl (fun a p => bucketAdd a (leadOf p) (tailOf p)) acc,
           g.2 ≠ [] ∧ List.Chain' (· < ·) g.2 ∧ g.1 < 256 ∧ ∀ t ∈ g.2, t < 256)
      ∧ bucketsIds (ids.foldl (fun a p => bucketAdd a (leadOf p) (tailOf p)) acc)
          = bucketsIds acc ++ ids := by
  intro ids
  induction ids with
  | nil =>
    intro acc _ _ hch hgood _
    exact ⟨hch, hgood, by simp [bucketsIds]⟩
  | cons p ids ih =>
    intro acc hsort hb hch hgood hrel
    have hp : p < 65536 := hb p (by simp)
    have hsort' : List.Sorted (· < ·) ids := hsort.of_cons
    have hplt : ∀ q ∈ ids, p < q := fun q hq => List.rel_of_sorted_cons hsort q hq
    have hb' : ∀ q ∈ ids, q < 65536 := fun q hq => hb q (by simp [hq])
    simp only [List.foldl_cons]
    by_cases hmem : leadOf p ∈ acc.map Prod.fst
    · -- the lead already has a bucket; it must be the last one
      obtain ⟨A, ts, hacc, hA⟩ := last_bucket_decomp acc (leadOf p) hmem hch
        (fun g hg => (hrel p (by simp) g hg).1)
      subst hacc
      rw [bucketAdd_last ts (tailOf p) hA]
      have hts : ∀ t ∈ ts, t < tailOf p :=
        (hrel p (by simp) (leadOf p, ts) (by simp)).2 rfl
      have hres := ih (A ++ [(leadOf p, ts ++ [tailOf p])]) hsort' hb' ?hch₁ ?hgood₁ ?hrel₁
      case hch₁ => simpa using hch
      case hgood₁ =>
        intro g hg
        rcases (by simpa using hg : g ∈ A ∨ g = (leadOf p, ts ++ [tailOf p])) with hg₁ | hg₁
        · exact hgood g (by simp [hg₁])
        · subst hg₁
          have hold := hgood (leadOf p, ts) (by simp)
          refine ⟨by simp, ?_, leadOf_lt_256 p, ?_⟩
          · exact List.Chain'.append hold.2.1 (List.chain'_singleton _)
              (fun x hx y hy => by
                simp only [List.head?_cons, Option.mem_def, Option.some.injEq] at hy
                exact hy ▸ hts x (List.mem_of_mem_getLast? hx))
          · intro t ht
            rcases (by simpa using ht : t ∈ ts ∨ t = tailOf p) with ht₁ | ht₁
            · exact hold.2.2.2 t ht₁
            · exact ht₁ ▸ tailOf_lt_256 p
      case hrel₁ =>
        intro q hq g hg
        rcases (by simpa using hg : g ∈ A ∨ g = (leadOf p, ts ++ [tailOf p])) with hg₁ | hg₁
        · exact hrel q (by simp [hq]) g (by simp [hg₁])
        · subst hg₁
          have hq16 := hb' q hq
          have hpq := hplt q hq
          refine ⟨leadOf_mono hp hq16 hpq, fun hl t ht => ?_⟩
          rcases (by simpa using ht : t ∈ ts ∨ t = tailOf p) with ht₁ | ht₁
          · exact (hrel q (by simp [hq]) (leadOf p, ts) (by simp)).2 hl t ht₁
          · exact ht₁ ▸ tailOf_lt_of_leadOf_eq hp hq16 hpq hl
      refine ⟨hres.1, hres.2.1, ?_⟩
      rw [hres.2.2]
      simp [bucketsIds, lead_mul_add_tail hp]
    · -- first id with this lead: a fresh bucket is appended
      rw [bucketAdd_not_mem (tailOf p) hmem]
      have hlast : ∀ x ∈ (acc.map Prod.fst).getLast?, x < leadOf p := by
        intro x hx
        have hxmem : x ∈ acc.map Prod.fst := List.mem_of_mem_getLast? hx
        obtain ⟨g, hg, hgx⟩ := List.mem_map.mp hxmem
        have hle := (hrel p (by simp) g hg).1
        have hne : x ≠ leadOf p := fun hh => hmem (hh ▸ hxmem)
        omega
      have hres := ih (acc ++ [(leadOf p, [tailOf p])]) hsort' hb' ?hch₂ ?hgood₂ ?hrel₂
      case hch₂ =>
        rw [List.map_append]
        exact List.Chain'.append hch (List.chain'_singleton _)
          (fun x hx y hy => by
            simp only [List.map_cons, List.map_nil, List.head?_cons, Option.mem_def,
              Option.some.injEq] at hy
            exact hy ▸ hlast x hx)
      case hgood₂ =>
        intro g hg
        rcases (by simpa using hg : g ∈ acc ∨ g = (leadOf p, [tailOf p])) with hg₁ | hg₁
        · exact hgood g hg₁
        · subst hg₁
          refine ⟨by simp, List.chain'_singleton _, leadOf_lt_256 p, fun t ht => ?_⟩
          have ht₁ : t = tailOf p := by simpa using ht
          exact ht₁ ▸ tailOf_lt_256 p
      case hrel₂ =>
        intro q hq g hg
        rcases (by simpa using hg : g ∈ acc ∨ g = (leadOf p, [tailOf p])) with hg₁ | hg₁
        · exact hrel q (by simp [hq]) g hg₁
        · subst hg₁
          have hq16 := hb' q hq
          have hpq := hplt q hq
          refine ⟨leadOf_mono hp hq16 hpq, fun hl t ht => ?_⟩
          have ht₁ : t = tailOf p := by simpa using ht
          exact ht₁ ▸ tailOf_lt_of_leadOf_eq hp hq16 hpq hl
      refine ⟨hres.1, hres.2.1, ?_⟩
      rw [hres.2.2]
      simp [bucketsIds, lead_mul_add_tail hp]

theorem sortedIds_facts (params : DMap)
    (hnd : (params.map Prod.fst).Nodup)
    (hb : ∀ p ∈ params.map Prod.fst, p < 65536) :
    List.Sorted (· < ·) (sortedIds params)
    ∧ (∀ p ∈ sortedIds params, p < 65536)
    ∧ (sortedIds params).Perm (params.map Prod.fst) := by
  have hperm : (sortedIds params).Perm (params.map Prod.fst) :=
    List.perm_insertionSort _ _
  have hndS : (sortedIds params).Nodup := hperm.symm.nodup hnd
  have hsortLe : List.Sorted (· ≤ ·) (sortedIds params) :=
    List.sorted_insertionSort _ _
  exact ⟨hsortLe.lt_of_le hndS, fun p hp => hb p (hperm.mem_iff.mp hp), hperm⟩

theorem groupByLead_spec (params : DMap)
    (hnd : (params.map Prod.fst).Nodup)
    (hb : ∀ p ∈ params.map Prod.fst, p < 65536) :
    List.Chain' (· < ·) ((groupByLead (sortedIds params)).map Prod.fst)
    ∧ (∀ g ∈ groupByLead (sortedIds params),
         g.2 ≠ [] ∧ List.Chain' (· < ·) g.2 ∧ g.1 < 256 ∧ ∀ t ∈ g.2, t < 256)
    ∧ bucketsIds (groupByLead (sortedIds params)) = sortedIds params := by
  obtain ⟨hsort, hb16, _⟩ := sortedIds_facts params hnd hb
  have h := foldl_bucketAdd_spec (sortedIds params) [] hsort hb16
    List.chain'_nil (by simp) (by simp)
  exact ⟨h.1, h.2.1, by simpa [bucketsIds] using h.2.2⟩

/-! ### Byte-level shape of a read-request encoding (C3) -/

theorem dlookup_of_all_none {params : DMap}
    (hall : ∀ e ∈ params, e.2 = none) {k : Nat}
    (hk : k ∈ params.map Prod.fst) : dlookup params k = some none := by
  induction params with
  | nil => simp at hk
  | cons hd tl ih =>
    obtain ⟨k₁, v₁⟩ := hd
    by_cases h : k₁ = k
    · have : v₁ = none := hall (k₁, v₁) (by simp)
      simp [dlookup, h, this]
    · have hk₂ : k ∈ tl.map Prod.fst := by
        rcases (by simpa using hk : k = k₁ ∨ k ∈ tl.map Prod.fst) with h₁ | h₁
        · exact absurd h₁.symm h
        · exact h₁
      simp [dlookup, h, ih (fun e he => hall e (by simp [he])) hk₂]

theorem fromBytesBE_pair (l t : Nat) : fromBytesBE [l, t] = l * 256 + t := by
  simp [fromBytesBE]

theorem encTailSecs_read {params : DMap} (hall : ∀ e ∈ params, e.2 = none)
    {l t : Nat} (hl : l < 256) (ht : t < 256)
    (hmem : l * 256 + t ∈ params.map Prod.fst) :
    encTailSecs params l t = some [Sec.auto t] := by
  have hbytes : (Sec.auto l).toBytes ++ (Sec.auto t).toBytes = [l, t] := by
    rw [Sec_auto_toBytes_lt hl, Sec_auto_toBytes_lt ht]; rfl
  have hlook : dlookup params (fromBytesBE ((Sec.auto l).toBytes ++ (Sec.auto t).toBytes))
      = some none := by
    rw [hbytes, fromBytesBE_pair]
    exact dlookup_of_all_none hall hmem
  simp [encTailSecs, hlook]

theorem encTails_read {params : DMap} (hall : ∀ e ∈ params, e.2 = none)
    {l : Nat} (hl : l < 256) (ts : List Nat) (ht : ∀ t ∈ ts, t < 256)
    (hmem : ∀ t ∈ ts, l * 256 + t ∈ params.map Prod.fst) :
    encTails params l ts = some (ts.map Sec.auto) := by
  induction ts with
  | nil => rfl
  | cons t r ih =>
    rw [encTails, encTailSecs_read hall hl (ht t (by simp)) (hmem t (by simp)),
      ih (fun x hx => ht x (by simp [hx])) (fun x hx => hmem x (by simp [hx]))]
    rfl

theorem encGroups_read {params : DMap} (hall : ∀ e ∈ params, e.2 = none)
    (gs : List (Nat × List Nat))
    (hgood : ∀ g ∈ gs, g.1 < 256 ∧ ∀ t ∈ g.2, t < 256)
    (hmem : ∀ g ∈ gs, ∀ t ∈ g.2, g.1 * 256 + t ∈ params.map Prod.fst) :
    encGroups params gs
      = some (gs.flatMap (fun g => [LEAD_INDICATOR, Sec.auto g.1] ++ g.2.map Sec.auto)) := by
  induction gs with
  | nil => rfl
  | cons g r ih =>
    rw [encGroups, encTails_read hall (hgood g (by simp)).1 g.2
        (hgood g (by simp)).2 (hmem g (by simp)),
      ih (fun x hx => hgood x (by simp [hx])) (fun x hx => hmem x (by simp [hx]))]
    rfl

theorem packetBytes_append (a b : List Sec) :
    packetBytes (a ++ b) = packetBytes a ++ packetBytes b :=
  List.flatMap_append a b _

theorem packetBytes_nil : packetBytes [] = [] := rfl

theorem packetBytes_cons (s : Sec) (ss : List Sec) :
    packetBytes (s :: ss) = s.toBytes ++ packetBytes ss := rfl

theorem packetBytes_auto_map {ts : List Nat} (h : ∀ t ∈ ts, t < 256) :
    packetBytes (ts.map Sec.auto) = ts := by
  induction ts with
  | nil => rfl
  | cons t r ih =>
    rw [List.map_cons, packetBytes_cons, Sec_auto_toBytes_lt (h t (by simp)),
      ih (fun x hx => h x (by simp [hx]))]
    rfl

theorem packetBytes_read_groups (gs : List (Nat × List Nat))
    (hgood : ∀ g ∈ gs, g.1 < 256 ∧ ∀ t ∈ g.2, t < 256) :
    packetBytes (gs.flatMap (fun g => [LEAD_INDICATOR, Sec.auto g.1] ++ g.2.map Sec.auto))
      = gs.flatMap (fun g => 0xFF :: g.1 :: g.2) := by
  induction gs with
  | nil => rfl
  | cons g r ih =>
    have hg := hgood g (by simp)
    rw [List.flatMap_cons, List.flatMap_cons, packetBytes_append,
      ih (fun x hx => hgood x (by simp [hx]))]
    congr 1
    rw [packetBytes_append, packetBytes_auto_map hg.2, packetBytes_cons,
      packetBytes_cons, Sec_auto_toBytes_lt hg.1]
    rfl

/-- C3: for every non-empty read request (distinct 16-bit ids, all values
absent), the emitted data block is precisely one `LEAD_INDICATOR (0xFF)`
plus lead byte per bucket, followed by that bucket's bare tail bytes; the
bucket leads are pairwise distinct (exactly one group header per distinct
lead), the tails inside each bucket are strictly ascending, and the
buckets enumerate exactly the sorted input ids (each read parameter
contributes exactly one bare tail byte after its group header). -/
theorem C3_read_request_encoding (params : DMap)
    (hne : params ≠ [])
    (hnd : (params.map Prod.fst).Nodup)
    (hb : ∀ p ∈ params.map Prod.fst, p < 65536)
    (hall : ∀ e ∈ params, e.2 = none) :
    (constructCommandBlock params).map packetBytes
      = some ((groupByLead (sortedIds params)).flatMap (fun g => 0xFF :: g.1 :: g.2))
    ∧ ((groupByLead (sortedIds params)).map Prod.fst).Nodup
    ∧ (∀ g ∈ groupByLead (sortedIds params), g.2 ≠ [] ∧ List.Chain' (· < ·) g.2)
    ∧ bucketsIds (groupByLead (sortedIds params)) = sortedIds params
    ∧ groupByLead (sortedIds params) ≠ [] := by
  obtain ⟨hch, hgood, hids⟩ := groupByLead_spec params hnd hb
  have hperm := (sortedIds_facts params hnd hb).2.2
  have hmem : ∀ g ∈ groupByLead (sortedIds params), ∀ t ∈ g.2,
      g.1 * 256 + t ∈ params.map Prod.fst := by
    intro g hg t ht
    refine hperm.mem_iff.mp ?_
    rw [← hids]
    exact List.mem_flatMap.mpr ⟨g, hg, List.mem_map.mpr ⟨t, ht, rfl⟩⟩
  have henc := encGroups_read hall (groupByLead (sortedIds params))
    (fun g hg => ⟨(hgood g hg).2.2.1, (hgood g hg).2.2.2⟩) hmem
  refine ⟨?_, ?_, fun g hg => ⟨(hgood g hg).1, (hgood g hg).2.1⟩, hids, ?_⟩
  · rw [constructCommandBlock, henc, Option.map_some']
    exact congrArg some (packetBytes_read_groups _
      (fun g hg => ⟨(hgood g hg).2.2.1, (hgood g hg).2.2.2⟩))
  · exact (List.chain'_iff_pairwise.mp hch).imp Nat.ne_of_lt
  · intro hnil
    have hempty : sortedIds params = [] := by rw [← hids, hnil]; rfl
    have h2 : params.map Prod.fst = [] := (hempty ▸ hperm.symm).eq_nil
    exact hne (List.map_eq_nil.mp h2)

/-- C3 witness: the read-request shape evaluated on the concrete id set
`{5, 1, 261}` (leads 0 and 1). -/
theorem C3_read_request_encoding_witness :
    (constructCommandBlock [(5, none), (1, none), (261, none)]).map packetBytes
      = some ((groupByLead (sortedIds [(5, none), (1, none), (261, none)])).flatMap
          (fun g => 0xFF :: g.1 :: g.2))
    ∧ ((groupByLead (sortedIds [(5, none), (1, none), (261, none)])).map Prod.fst).Nodup
    ∧ (∀ g ∈ groupByLead (sortedIds [(5, none), (1, none), (261, none)]),
         g.2 ≠ [] ∧ List.Chain' (· < ·) g.2)
    ∧ bucketsIds (groupByLead (sortedIds [(5, none), (1, none), (261, none)]))
        = sortedIds [(5, none), (1, none), (261, none)]
    ∧ groupByLead (sortedIds [(5, none), (1, none), (261, none)]) ≠ [] :=
  C3_read_request_encoding [(5, none), (1, none), (261, none)]
    (by decide) (by decide) (by decide) (by decide)

/-! ### Round trip: decoding an all-write encoding (C5)

The decoded state reached while scanning an encoded write block is
characterized by the folds below: every tail of a group inserts the
encoded value of its parameter. -/

/-- Effect on the decoded mapping of scanning one encoded tail of the
group with lead `l`. -/
def insertTail (params : DMap) (l : Nat) (m : DMap) (t : Nat) : DMap :=
  match dlookup params (l * 256 + t) with
  | some (some v) => dinsert m (l * 256 + t) (some v)
  | _ => m

/-- Effect of scanning one encoded group. -/
def insertGroup (params : DMap) (m : DMap) (g : Nat × List Nat) : DMap :=
  g.2.foldl (insertTail params g.1) m

/-- Effect of scanning a whole encoded block. -/
def insertGroups (params : DMap) (gs : List (Nat × List Nat)) (m : DMap) : DMap :=
  gs.foldl (insertGroup params) m

/-- Scan iterations needed for an encoded block: one per lead marker plus
one per tail. -/
def stepsOf (gs : List (Nat × List Nat)) : Nat :=
  (gs.map (fun g => g.2.length + 1)).sum

theorem byteSizeF_le :
    ∀ fuel v n, 1 ≤ n → v ≤ fuel → v < 256 ^ n → byteSizeF fuel v ≤ n := by
  intro fuel
  induction fuel with
  | zero =>
    intro v n hn _ _
    simpa [byteSizeF] using hn
  | succ fuel ih =>
    intro v n hn hle hlt
    by_cases hv : v < 256
    · simpa [byteSizeF, hv] using hn
    · have hn2 : 2 ≤ n := by
        by_contra hc
        have hone : n = 1 := by omega
        subst hone
        have : v < 256 := by simpa using hlt
        omega
      have hdivfuel : v / 256 ≤ fuel := by omega
      have hdivlt : v / 256 < 256 ^ (n - 1) := by
        have hsplit : 256 ^ n = 256 ^ (n - 1) * 256 := by
          rw [← Nat.pow_succ]
          congr 1
          omega
        rw [Nat.div_lt_iff_lt_mul (by omega : 0 < 256)]
        omega
      have := ih (v / 256) (n - 1) (by omega) hdivfuel hdivlt
      simp only [byteSizeF, hv, if_false, reduceIte]
      omega

theorem byteSizeOf_le {v n : Nat} (hn : 1 ≤ n) (h : v < 256 ^ n) :
    byteSizeOf v ≤ n :=
  byteSizeF_le v v n hn (Nat.le_refl v) h

theorem decode_lead_step (fuel l : Nat) (rest : List Nat) (lead : List Nat)
    (values : DMap) :
    decodeLoopF (fuel + 1) (0xFF :: l :: rest) lead values
      = decodeLoopF fuel rest [l] values := by
  simp [decodeLoopF]

theorem decode_dyn_step (fuel l t v : Nat) (rest : List Nat) (values : DMap) :
    decodeLoopF (fuel + 1)
        (0xFE :: byteSizeOf v :: t :: (toBytesBE v (byteSizeOf v) ++ rest)) [l] values
      = decodeLoopF fuel rest [l] (dinsert values (l * 256 + t) (some v)) := by
  have hlen : (toBytesBE v (byteSizeOf v)).length = byteSizeOf v :=
    toBytesBE_length _ _
  have hcheck : ¬((t :: (toBytesBE v (byteSizeOf v) ++ rest)).length < byteSizeOf v) := by
    simp only [List.length_cons, List.length_append, hlen]
    omega
  have hparam : paramOf [l] t = l * 256 + t := by
    simp [paramOf, fromBytesBE]
  simp only [decodeLoopF, hcheck, if_false, reduceIte]
  rw [if_neg (by decide : ¬(254 = 255)), if_neg (by decide : ¬(254 = 253)),
    List.take_left' hlen, List.drop_left' hlen, hparam, fromBytesBE_auto]

theorem dlookup_of_all_present {params : DMap}
    (hall : ∀ e ∈ params, ∃ v, e.2 = some v ∧ v < 256 ^ 255) {k : Nat}
    (hk : k ∈ params.map Prod.fst) :
    ∃ v, dlookup params k = some (some v) ∧ v < 256 ^ 255 := by
  induction params with
  | nil => simp at hk
  | cons hd tl ih =>
    obtain ⟨k₁, v₁⟩ := hd
    by_cases h : k₁ = k
    · obtain ⟨v, hv, hvlt⟩ := hall (k₁, v₁) (by simp)
      have hv2 : v₁ = some v := hv
      exact ⟨v, by simp [dlookup, h, hv2], hvlt⟩
    · have hk₂ : k ∈ tl.map Prod.fst := by
        rcases (by simpa using hk : k = k₁ ∨ k ∈ tl.map Prod.fst) with h₁ | h₁
        · exact absurd h₁.symm h
        · exact h₁
      obtain ⟨v, hv, hvlt⟩ := ih (fun e he => hall e (by simp [he])) hk₂
      exact ⟨v, by simp [dlookup, h, hv], hvlt⟩

theorem encTailSecs_present {params : DMap} {l t v : Nat} (hl : l < 256)
    (ht : t < 256) (hv : dlookup params (l * 256 + t) = some (some v)) :
    encTailSecs params l t
      = some [DYNAMIC_VAL, Sec.auto (byteSizeOf v), Sec.auto t, Sec.auto v] := by
  have hbytes : (Sec.auto l).toBytes ++ (Sec.auto t).toBytes = [l, t] := by
    rw [Sec_auto_toBytes_lt hl, Sec_auto_toBytes_lt ht]; rfl
  have hlook : dlookup params (fromBytesBE ((Sec.auto l).toBytes ++ (Sec.auto t).toBytes))
      = some (some v) := by
    rw [hbytes, fromBytesBE_pair]
    exact hv
  simp only [encTailSecs]
  rw [hlook]
  rfl

theorem encTails_present {params : DMap} {l : Nat} (hl : l < 256)
    (ts : List Nat) (ht : ∀ t ∈ ts, t < 256)
    (hvals : ∀ t ∈ ts, ∃ v, dlookup params (l * 256 + t) = some (some v) ∧ v < 256 ^ 255) :
    ∃ s, encTails params l ts = some s
      ∧ (∀ k rest values,
          decodeLoopF (ts.length + k) (packetBytes s ++ rest) [l] values
            = decodeLoopF k rest [l] (ts.foldl (insertTail params l) values))
      ∧ ts.length ≤ (packetBytes s).length := by
  induction ts with
  | nil => exact ⟨[], rfl, fun k rest values => by simp [packetBytes], by simp⟩
  | cons t ts ih =>
    obtain ⟨v, hv, hvlt⟩ := hvals t (by simp)
    obtain ⟨s, hs, hdec, hle⟩ := ih (fun x hx => ht x (by simp [hx]))
      (fun x hx => hvals x (by simp [hx]))
    have henc : encTails params l (t :: ts)
        = some ([DYNAMIC_VAL, Sec.auto (byteSizeOf v), Sec.auto t, Sec.auto v] ++ s) := by
      rw [encTails, encTailSecs_present hl (ht t (by simp)) hv, hs]
      rfl
    refine ⟨_, henc, ?_, ?_⟩
    · intro k rest values
      have hL : byteSizeOf v < 256 := by
        have := byteSizeOf_le (by omega : 1 ≤ 255) hvlt
        omega
      have hgbytes : packetBytes
          ([DYNAMIC_VAL, Sec.auto (byteSizeOf v), Sec.auto t, Sec.auto v] ++ s)
          = 0xFE :: byteSizeOf v :: t :: (toBytesBE v (byteSizeOf v) ++ packetBytes s) := by
        rw [packetBytes_append, packetBytes_cons, packetBytes_cons, packetBytes_cons,
          packetBytes_cons, Sec_auto_toBytes_lt hL, Sec_auto_toBytes_lt (ht t (by simp)),
          DYNAMIC_VAL_toBytes, Sec_auto_toBytes]
        simp [packetBytes_nil]
      rw [hgbytes]
      have hassoc : (0xFE : Nat) :: byteSizeOf v :: t :: (toBytesBE v (byteSizeOf v) ++ packetBytes s) ++ rest
          = 0xFE :: byteSizeOf v :: t :: (toBytesBE v (byteSizeOf v) ++ (packetBytes s ++ rest)) := by
        simp
      rw [hassoc]
      have hfuel : (t :: ts).length + k = (ts.length + k) + 1 := by
        simp [Nat.add_comm, Nat.add_assoc, Nat.add_left_comm]
      rw [hfuel, decode_dyn_step, hdec]
      have hfold : (t :: ts).foldl (insertTail params l) values
          = ts.foldl (insertTail params l) (dinsert values (l * 256 + t) (some v)) := by
        rw [List.foldl_cons]
        congr 1
        rw [insertTail, hv]
      rw [hfold]
    · have : packetBytes ([DYNAMIC_VAL, Sec.auto (byteSizeOf v), Sec.auto t, Sec.auto v] ++ s)
          = packetBytes [DYNAMIC_VAL, Sec.auto (byteSizeOf v), Sec.auto t, Sec.auto v]
            ++ packetBytes s := packetBytes_append _ _
      rw [this]
      have h4 : 1 ≤ (packetBytes [DYNAMIC_VAL, Sec.auto (byteSizeOf v), Sec.auto t,
          Sec.auto v]).length := by
        rw [packetBytes_cons]
        simp [DYNAMIC_VAL, Sec_auto_toBytes_lt (by omega : (0xFE : Nat) < 256)]
      simp only [List.length_append, List.length_cons]
      omega

theorem encGroups_present {params : DMap} (gs : List (Nat × List Nat))
    (hgood : ∀ g ∈ gs, g.1 < 256 ∧ ∀ t ∈ g.2, t < 256)
    (hvals : ∀ g ∈ gs, ∀ t ∈ g.2,
       ∃ v, dlookup params (g.1 * 256 + t) = some (some v) ∧ v < 256 ^ 255) :
    ∃ s, encGroups params gs = some s
      ∧ (∀ k lead values,
          decodeLoopF (stepsOf gs + k) (packetBytes s) lead values
            = some (insertGroups params gs values))
      ∧ stepsOf gs ≤ (packetBytes s).length := by
  induction gs with
  | nil =>
    refine ⟨[], rfl, fun k lead values => ?_, by simp [stepsOf]⟩
    show decodeLoopF (stepsOf [] + k) [] lead values = some values
    cases k <;> rfl
  | cons g r ih =>
    obtain ⟨st, hst, hdecT, hleT⟩ := encTails_present (hgood g (by simp)).1 g.2
      (hgood g (by simp)).2 (hvals g (by simp))
    obtain ⟨sr, hsr, hdecR, hleR⟩ := ih (fun x hx => hgood x (by simp [hx]))
      (fun x hx => hvals x (by simp [hx]))
    have henc : encGroups params (g :: r)
        = some (([LEAD_INDICATOR, Sec.auto g.1] ++ st) ++ sr) := by
      rw [encGroups, hst, hsr]
      rfl
    refine ⟨_, henc, ?_, ?_⟩
    · intro k lead values
      have hbytes : packetBytes (([LEAD_INDICATOR, Sec.auto g.1] ++ st) ++ sr)
          = 0xFF :: g.1 :: (packetBytes st ++ packetBytes sr) := by
        rw [packetBytes_append, packetBytes_append, packetBytes_cons, packetBytes_cons,
          Sec_auto_toBytes_lt (hgood g (by simp)).1]
        rfl
      rw [hbytes]
      have hfuel : stepsOf (g :: r) + k = (g.2.length + (stepsOf r + k)) + 1 := by
        simp [stepsOf]
        omega
      rw [hfuel, decode_lead_step, hdecT, hdecR]
      rfl
    · have hlen : (packetBytes (([LEAD_INDICATOR, Sec.auto g.1] ++ st) ++ sr)).length
          = (packetBytes [LEAD_INDICATOR, Sec.auto g.1]).length
            + (packetBytes st).length + (packetBytes sr).length := by
        rw [packetBytes_append, packetBytes_append]
        simp [Nat.add_assoc]
      have h2 : (packetBytes [LEAD_INDICATOR, Sec.auto g.1]).length = 2 := by
        rw [packetBytes_cons, packetBytes_cons, Sec_auto_toBytes_lt (hgood g (by simp)).1,
          LEAD_INDICATOR_toBytes]
        rfl
      rw [hlen, h2]
      simp only [stepsOf, List.map_cons, List.sum_cons] at hleR ⊢
      omega

theorem insertTail_foldl_lookup (params : DMap) (l : Nat) (ts : List Nat)
    (hvals : ∀ t ∈ ts, ∃ v, dlookup params (l * 256 + t) = some (some v)) :
    ∀ m p, dlookup (ts.foldl (insertTail params l) m) p
      = if p ∈ ts.map (fun t => l * 256 + t) then dlookup params p else dlookup m p := by
  induction ts with
  | nil => simp
  | cons t ts ih =>
    intro m p
    obtain ⟨v, hv⟩ := hvals t (by simp)
    rw [List.foldl_cons, ih (fun x hx => hvals x (by simp [hx])) (insertTail params l m t) p]
    by_cases hmem : p ∈ ts.map (fun t => l * 256 + t)
    · simp [hmem]
    · rw [if_neg hmem]
      by_cases hp : p = l * 256 + t
      · subst hp
        rw [if_pos (by simp)]
        simp only [insertTail]
        rw [hv, dlookup_dinsert_self]
      · rw [if_neg (by simp [hp, hmem])]
        simp only [insertTail]
        rw [hv, dlookup_dinsert_ne _ _ hp]

theorem insertGroups_lookup (params : DMap) (gs : List (Nat × List Nat))
    (hvals : ∀ g ∈ gs, ∀ t ∈ g.2, ∃ v, dlookup params (g.1 * 256 + t) = some (some v)) :
    ∀ m p, dlookup (insertGroups params gs m) p
      = if p ∈ bucketsIds gs then dlookup params p else dlookup m p := by
  induction gs with
  | nil => simp [insertGroups, bucketsIds]
  | cons g r ih =>
    intro m p
    have hstep : insertGroups params (g :: r) m = insertGroups params r (insertGroup params m g) := rfl
    rw [hstep, ih (fun x hx => hvals x (by simp [hx])) (insertGroup params m g) p,
      insertGroup, insertTail_foldl_lookup params g.1 g.2 (hvals g (by simp)) m p]
    have hsplit : p ∈ bucketsIds (g :: r)
        ↔ p ∈ g.2.map (fun t => g.1 * 256 + t) ∨ p ∈ bucketsIds r := by
      simp [bucketsIds]
    by_cases h₁ : p ∈ bucketsIds r
    · rw [if_pos h₁, if_pos (hsplit.mpr (Or.inr h₁))]
    · rw [if_neg h₁]
      by_cases h₂ : p ∈ g.2.map (fun t => g.1 * 256 + t)
      · rw [if_pos h₂, if_pos (hsplit.mpr (Or.inl h₂))]
      · rw [if_neg h₂, if_neg (fun hc => (hsplit.mp hc).elim h₂ h₁)]

theorem dlookup_eq_none (params : DMap) (p : Nat)
    (h : p ∉ params.map Prod.fst) : dlookup params p = none := by
  induction params with
  | nil => rfl
  | cons hd tl ih =>
    obtain ⟨k₁, v₁⟩ := hd
    simp only [List.map_cons, List.mem_cons, not_or] at h
    have h1 : ¬k₁ = p := fun hh => h.1 hh.symm
    simp [dlookup, h1, ih h.2]

/-- C5 amended: for every mapping from distinct 16-bit parameter ids to
present values below `256 ^ 255` (so that the auto-sized value length
fits the one-byte length field of the DYNAMIC_VAL encoding), decoding the
outgoing encoding of the mapping returns a mapping extensionally equal to
the original; the claim's unbounded form fails at `256 ^ 255` (see the
counterexample). -/
theorem C5_write_roundtrip (params : DMap)
    (hnd : (params.map Prod.fst).Nodup)
    (hb : ∀ p ∈ params.map Prod.fst, p < 65536)
    (hall : ∀ e ∈ params, ∃ v, e.2 = some v ∧ v < 256 ^ 255) :
    ∃ secs m, constructCommandBlock params = some secs
      ∧ decodeData (packetBytes secs) = some m
      ∧ ∀ p, dlookup m p = dlookup params p := by
  obtain ⟨hch, hgood, hids⟩ := groupByLead_spec params hnd hb
  have hperm := (sortedIds_facts params hnd hb).2.2
  have hmem : ∀ g ∈ groupByLead (sortedIds params), ∀ t ∈ g.2,
      g.1 * 256 + t ∈ params.map Prod.fst := by
    intro g hg t ht
    refine hperm.mem_iff.mp ?_
    rw [← hids]
    exact List.mem_flatMap.mpr ⟨g, hg, List.mem_map.mpr ⟨t, ht, rfl⟩⟩
  have hvals : ∀ g ∈ groupByLead (sortedIds params), ∀ t ∈ g.2,
      ∃ v, dlookup params (g.1 * 256 + t) = some (some v) ∧ v < 256 ^ 255 :=
    fun g hg t ht => dlookup_of_all_present hall (hmem g hg t ht)
  obtain ⟨s, hs, hdec, hle⟩ := encGroups_present (groupByLead (sortedIds params))
    (fun g hg => ⟨(hgood g hg).2.2.1, (hgood g hg).2.2.2⟩) hvals
  refine ⟨s, insertGroups params (groupByLead (sortedIds params)) [], ?_, ?_, ?_⟩
  · rw [constructCommandBlock]
    exact hs
  · rw [decodeData]
    have hlen : (packetBytes s).length
        = stepsOf (groupByLead (sortedIds params))
          + ((packetBytes s).length - stepsOf (groupByLead (sortedIds params))) := by
      omega
    rw [hlen, hdec]
  · intro p
    rw [insertGroups_lookup params (groupByLead (sortedIds params))
      (fun g hg t ht => (hvals g hg t ht).imp (fun v hv => hv.1)) [] p]
    by_cases hp : p ∈ bucketsIds (groupByLead (sortedIds params))
    · rw [if_pos hp]
    · rw [if_neg hp]
      have hnot : p ∉ params.map Prod.fst := by
        intro hc
        exact hp (by rw [hids]; exact hperm.mem_iff.mpr hc)
      rw [dlookup_eq_none params p hnot]
      rfl

/-- C5 witness: the round trip at the claim's own scenario
`{1: 7, 256: 12}` (lead bytes 0 and 1 separated correctly). -/
theorem C5_write_roundtrip_witness :
    ∃ secs m, constructCommandBlock [(1, some 7), (256, some 12)] = some secs
      ∧ decodeData (packetBytes secs) = some m
      ∧ ∀ p, dlookup m p = dlookup [(1, some 7), (256, some 12)] p :=
  C5_write_roundtrip [(1, some 7), (256, some 12)] (by decide) (by decide)
    (by
      intro e he
      rcases (by simpa using he :
          e = ((1 : Nat), some (7 : Nat)) ∨ e = ((256 : Nat), some (12 : Nat))) with h | h
      · exact ⟨7, by rw [h], by norm_num⟩
      · exact ⟨12, by rw [h], by norm_num⟩)

set_option maxRecDepth 100000 in
/-- C5 counterexample: the claim as stated quantifies over all present
non-negative values.  For the mapping `{1: 256 ^ 255}` the auto-sized
value occupies 256 bytes, so the emitted length field `Section(256)` is
itself 2 bytes wide; the decoder misreads the second length byte as the
tail byte and the round trip collapses to a wrong mapping that assigns
id 1 the value 0 instead of `256 ^ 255`. -/
theorem C5_write_roundtrip_counterexample :
    (constructCommandBlock [(1, some (256 ^ 255))]).bind
        (fun secs => decodeData (packetBytes secs))
      = some [(0, some 0), (1, some 0)]
    ∧ dlookup [(0, some 0), (1, some 0)] 1 ≠ some (some (256 ^ 255)) := by
  constructor
  · decide
  · decide

/-! ### Byte-level shape of the command frame (C2, C9) -/

theorem HEADER_toBytes : HEADER.toBytes = [0xFD, 0xFD] := rfl

theorem PROTOCOL_TYPE_toBytes : PROTOCOL_TYPE.toBytes = [0x02] := rfl

theorem checksumSec_toBytes (bs : List Nat) :
    (checksumSec bs).toBytes = toBytesBE (checksumValue bs) 2 := rfl

theorem mkSec_toBytes (v n : Nat) : (⟨v, n⟩ : Sec).toBytes = toBytesBE v n := rfl

theorem setBytes_toBytes {bs : List Nat} (h : ∀ b ∈ bs, b < 256) :
    (⟨fromBytesBE bs, bs.length⟩ : Sec).toBytes = bs :=
  toBytesBE_fromBytesBE bs h

theorem commandSecs_empty_pwd (id : List Nat) (func : Sec) (data : List Nat) :
    commandSecs id [] func data
      = [HEADER, PROTOCOL_TYPE, Sec.auto id.length, ⟨fromBytesBE id, id.length⟩,
         Sec.auto 0, func, ⟨fromBytesBE data, data.length⟩,
         checksumSec (packetBytes [PROTOCOL_TYPE, Sec.auto id.length,
           ⟨fromBytesBE id, id.length⟩, Sec.auto 0, func,
           ⟨fromBytesBE data, data.length⟩])] := rfl

theorem commandSecs_cons_pwd (id : List Nat) (p : Nat) (ps : List Nat)
    (func : Sec) (data : List Nat) :
    commandSecs id (p :: ps) func data
      = [HEADER, PROTOCOL_TYPE, Sec.auto id.length, ⟨fromBytesBE id, id.length⟩,
         Sec.auto (p :: ps).length, ⟨fromBytesBE (p :: ps), (p :: ps).length⟩,
         func, ⟨fromBytesBE data, data.length⟩,
         checksumSec (packetBytes [PROTOCOL_TYPE, Sec.auto id.length,
           ⟨fromBytesBE id, id.length⟩, Sec.auto (p :: ps).length,
           ⟨fromBytesBE (p :: ps), (p :: ps).length⟩, func,
           ⟨fromBytesBE data, data.length⟩])] := rfl

theorem coveredBytes_empty (id : List Nat) (func : Sec) (data : List Nat)
    (hidlen : id.length < 256) (hidb : ∀ b ∈ id, b < 256)
    (hdb : ∀ b ∈ data, b < 256) :
    packetBytes [PROTOCOL_TYPE, Sec.auto id.length, ⟨fromBytesBE id, id.length⟩,
        Sec.auto 0, func, ⟨fromBytesBE data, data.length⟩]
      = [0x02, id.length] ++ id ++ [0] ++ func.toBytes ++ data := by
  rw [packetBytes_cons, packetBytes_cons, packetBytes_cons, packetBytes_cons,
    packetBytes_cons, packetBytes_cons, packetBytes_nil, PROTOCOL_TYPE_toBytes,
    Sec_auto_toBytes_lt hidlen, Sec_auto_toBytes_lt (by omega : (0 : Nat) < 256),
    setBytes_toBytes hidb, setBytes_toBytes hdb]
  simp

theorem coveredBytes_cons (id : List Nat) (p : Nat) (ps : List Nat) (func : Sec)
    (data : List Nat) (hidlen : id.length < 256) (hidb : ∀ b ∈ id, b < 256)
    (hplen : (p :: ps).length < 256) (hpb : ∀ b ∈ p :: ps, b < 256)
    (hdb : ∀ b ∈ data, b < 256) :
    packetBytes [PROTOCOL_TYPE, Sec.auto id.length, ⟨fromBytesBE id, id.length⟩,
        Sec.auto (p :: ps).length, ⟨fromBytesBE (p :: ps), (p :: ps).length⟩,
        func, ⟨fromBytesBE data, data.length⟩]
      = [0x02, id.length] ++ id ++ [(p :: ps).length] ++ (p :: ps) ++ func.toBytes ++ data := by
  rw [packetBytes_cons, packetBytes_cons, packetBytes_cons, packetBytes_cons,
    packetBytes_cons, packetBytes_cons, packetBytes_cons, packetBytes_nil,
    PROTOCOL_TYPE_toBytes, Sec_auto_toBytes_lt hidlen, Sec_auto_toBytes_lt hplen,
    setBytes_toBytes hidb, setBytes_toBytes hpb, setBytes_toBytes hdb]
  simp

theorem commandBytes_empty (id : List Nat) (func : Sec) (data : List Nat)
    (hidlen : id.length < 256) (hidb : ∀ b ∈ id, b < 256)
    (hdb : ∀ b ∈ data, b < 256) :
    packetBytes (commandSecs id [] func data)
      = [0xFD, 0xFD] ++ ([0x02, id.length] ++ id ++ [0] ++ func.toBytes ++ data)
        ++ toBytesBE (checksumValue
             ([0x02, id.length] ++ id ++ [0] ++ func.toBytes ++ data)) 2 := by
  rw [commandSecs_empty_pwd, coveredBytes_empty id func data hidlen hidb hdb,
    packetBytes_cons, packetBytes_cons, packetBytes_cons, packetBytes_cons,
    packetBytes_cons, packetBytes_cons, packetBytes_cons, packetBytes_cons,
    packetBytes_nil, HEADER_toBytes, PROTOCOL_TYPE_toBytes,
    Sec_auto_toBytes_lt hidlen, Sec_auto_toBytes_lt (by omega : (0 : Nat) < 256),
    setBytes_toBytes hidb, setBytes_toBytes hdb, checksumSec_toBytes]
  simp

theorem commandBytes_cons (id : List Nat) (p : Nat) (ps : List Nat) (func : Sec)
    (data : List Nat) (hidlen : id.length < 256) (hidb : ∀ b ∈ id, b < 256)
    (hplen : (p :: ps).length < 256) (hpb : ∀ b ∈ p :: ps, b < 256)
    (hdb : ∀ b ∈ data, b < 256) :
    packetBytes (commandSecs id (p :: ps) func data)
      = [0xFD, 0xFD]
        ++ ([0x02, id.length] ++ id ++ [(p :: ps).length] ++ (p :: ps)
            ++ func.toBytes ++ data)
        ++ toBytesBE (checksumValue
             ([0x02, id.length] ++ id ++ [(p :: ps).length] ++ (p :: ps)
              ++ func.toBytes ++ data)) 2 := by
  rw [commandSecs_cons_pwd, coveredBytes_cons id p ps func data hidlen hidb hplen hpb hdb,
    packetBytes_cons, packetBytes_cons, packetBytes_cons, packetBytes_cons,
    packetBytes_cons, packetBytes_cons, packetBytes_cons, packetBytes_cons,
    packetBytes_cons, packetBytes_nil, HEADER_toBytes, PROTOCOL_TYPE_toBytes,
    Sec_auto_toBytes_lt hidlen, Sec_auto_toBytes_lt hplen,
    setBytes_toBytes hidb, setBytes_toBytes hpb, setBytes_toBytes hdb,
    checksumSec_toBytes]
  simp

/-- C2: the 2-byte checksum of every constructed frame equals the byte-swap
of the sum of the covered bytes modulo 65536, where the covered range is
`command[1:-1]` — protocol-type through the data block, excluding the
2-byte header and the checksum itself; the frame serializes as
header ++ covered ++ checksum, the covered range is exactly
`protocol-type | idLen | id | pwdLen | [pwd] | func | data`, and response
validation computes the expected checksum with the same function over
`response[1:-1]`. -/
theorem C2_checksum_algorithm (id pwd : List Nat) (func : Sec) (data : List Nat)
    (hidlen : id.length < 256) (hidb : ∀ b ∈ id, b < 256)
    (hpwdlen : pwd.length < 256) (hpwdb : ∀ b ∈ pwd, b < 256)
    (hdb : ∀ b ∈ data, b < 256) :
    packetBytes (commandSecs id pwd func data)
      = [0xFD, 0xFD]
        ++ packetBytes (((commandSecs id pwd func data).drop 1).dropLast)
        ++ toBytesBE (specByteSwap
             ((packetBytes (((commandSecs id pwd func data).drop 1).dropLast)).sum
               % 65536)) 2
    ∧ packetBytes (((commandSecs id pwd func data).drop 1).dropLast)
        = [0x02, id.length] ++ id ++ [pwd.length] ++ pwd ++ func.toBytes ++ data
    ∧ (commandSecs id pwd func data).getLast?
        = some (checksumSec
            (packetBytes (((commandSecs id pwd func data).drop 1).dropLast)))
    ∧ (checksumSec (packetBytes (((commandSecs id pwd func data).drop 1).dropLast))).value
        = specByteSwap
            ((packetBytes (((commandSecs id pwd func data).drop 1).dropLast)).sum % 65536)
    ∧ ∀ resp : List Sec, expectedChecksumValue resp
        = specByteSwap ((packetBytes ((resp.drop 1).dropLast)).sum % 65536) := by
  have hval : ∀ bs : List Nat, (checksumSec bs).value = specByteSwap (bs.sum % 65536) :=
    fun bs => checksumValue_eq_spec bs
  have hresp : ∀ resp : List Sec, expectedChecksumValue resp
      = specByteSwap ((packetBytes ((resp.drop 1).dropLast)).sum % 65536) :=
    fun resp => hval _
  cases pwd with
  | nil =>
    have hcov : ((commandSecs id [] func data).drop 1).dropLast
        = [PROTOCOL_TYPE, Sec.auto id.length, ⟨fromBytesBE id, id.length⟩,
           Sec.auto 0, func, ⟨fromBytesBE data, data.length⟩] := by
      rw [commandSecs_empty_pwd]
      rfl
    have hcovb := coveredBytes_empty id func data hidlen hidb hdb
    refine ⟨?_, ?_, ?_, hval _, hresp⟩
    · rw [hcov, hcovb, commandBytes_empty id func data hidlen hidb hdb,
        checksumValue_eq_spec]
    · rw [hcov, hcovb]
      simp
    · rw [commandSecs_empty_pwd]
      rfl
  | cons p ps =>
    have hcov : ((commandSecs id (p :: ps) func data).drop 1).dropLast
        = [PROTOCOL_TYPE, Sec.auto id.length, ⟨fromBytesBE id, id.length⟩,
           Sec.auto (p :: ps).length, ⟨fromBytesBE (p :: ps), (p :: ps).length⟩,
           func, ⟨fromBytesBE data, data.length⟩] := by
      rw [commandSecs_cons_pwd]
      rfl
    have hcovb := coveredBytes_cons id p ps func data hidlen hidb hpwdlen hpwdb hdb
    refine ⟨?_, ?_, ?_, hval _, hresp⟩
    · rw [hcov, hcovb, commandBytes_cons id p ps func data hidlen hidb hpwdlen hpwdb hdb,
        checksumValue_eq_spec]
    · rw [hcov, hcovb]
    · rw [commandSecs_cons_pwd]
      rfl

/-- C2 witness: the frame layout conjunct applied at a concrete frame
(device-id `DE`, password `1`, function read, data block `FF 00 01`). -/
theorem C2_checksum_algorithm_witness :
    packetBytes (commandSecs [68, 69] [49] FUNC_R [255, 0, 1])
      = [0xFD, 0xFD]
        ++ packetBytes (((commandSecs [68, 69] [49] FUNC_R [255, 0, 1]).drop 1).dropLast)
        ++ toBytesBE (specByteSwap
             ((packetBytes (((commandSecs [68, 69] [49] FUNC_R [255, 0, 1]).drop
                 1).dropLast)).sum % 65536)) 2 :=
  (C2_checksum_algorithm [68, 69] [49] FUNC_R [255, 0, 1]
    (by decide) (by decide) (by decide) (by decide) (by decide)).1

/-- C9: with an empty password the serialized frame carries only the single
zero `pwdLen` byte and no password-content bytes at all, matching the
non-empty layout with the content field absent; with a non-empty password
the password bytes appear immediately after the length byte, and the frame
grows by exactly the password's length. -/
theorem C9_password_omission (id : List Nat) (func : Sec) (data : List Nat)
    (p : Nat) (ps : List Nat)
    (hidlen : id.length < 256) (hidb : ∀ b ∈ id, b < 256)
    (hplen : (p :: ps).length < 256) (hpb : ∀ b ∈ p :: ps, b < 256)
    (hdb : ∀ b ∈ data, b < 256) :
    packetBytes (commandSecs id [] func data)
      = [0xFD, 0xFD, 0x02, id.length] ++ id ++ [0] ++ func.toBytes ++ data
        ++ toBytesBE (checksumValue
            ([0x02, id.length] ++ id ++ [0] ++ func.toBytes ++ data)) 2
    ∧ packetBytes (commandSecs id (p :: ps) func data)
      = [0xFD, 0xFD, 0x02, id.length] ++ id ++ [(p :: ps).length] ++ (p :: ps)
          ++ func.toBytes ++ data
        ++ toBytesBE (checksumValue
            ([0x02, id.length] ++ id ++ [(p :: ps).length] ++ (p :: ps)
              ++ func.toBytes ++ data)) 2
    ∧ (packetBytes (commandSecs id (p :: ps) func data)).length
        = (packetBytes (commandSecs id [] func data)).length + (p :: ps).length := by
  have h₁ := commandBytes_empty id func data hidlen hidb hdb
  have h₂ := commandBytes_cons id p ps func data hidlen hidb hplen hpb hdb
  refine ⟨by rw [h₁]; simp, by rw [h₂]; simp, ?_⟩
  rw [h₁, h₂]
  simp [toBytesBE_length]
  omega

/-- C9 witness: the frame-length relation at a concrete frame — adding the
one-byte password `1` grows the serialized frame by exactly one byte. -/
theorem C9_password_omission_witness :
    (packetBytes (commandSecs [68, 69] [49] FUNC_R [255, 0, 1])).length
      = (packetBytes (commandSecs [68, 69] [] FUNC_R [255, 0, 1])).length
        + ([49] : List Nat).length :=
  (C9_password_omission [68, 69] FUNC_R [255, 0, 1] 49 []
    (by decide) (by decide) (by decide) (by decide) (by decide)).2.2

end Blauberg
